import Mathlib

/-!
Verification development for the TranslatorApp PDF-translation backend.

Each definition is a shallow embedding of a function (or code path) of the
Python sources under `backend/app/`.  Geometry is modelled over `ℚ` (the
Python code computes with floats; the claims checked here concern order
relations and exact linear arithmetic that floats and rationals agree on
for the inputs at hand).  External collaborators (the Azure / LibreTranslate
HTTP backends, PyMuPDF, Tesseract) are modelled as abstract functions or
oracles, following the external-interface contracts of the specification.
-/

namespace TranslatorApp

/-! ## Geometry: axis-aligned rectangles (fitz.Rect) -/

/-- An axis-aligned rectangle `(x0, y0, x1, y1)`, as used for bboxes and
render regions (`fitz.Rect`). -/
structure Rect where
  x0 : ℚ
  y0 : ℚ
  x1 : ℚ
  y1 : ℚ
deriving Repr, DecidableEq

/-- `main.py` / `pdf_processor.py`: the clamped length-ratio expansion factor
`min(cap, max(1.01, len(translated) / max(1, len(original))))`.
The digital paths use `cap = 1.05`, the scanned path uses `cap = 1.1`. -/
def lenRatio (cap : ℚ) (origLen transLen : ℕ) : ℚ :=
  min cap (max (101/100) ((transLen : ℚ) / ((max 1 origLen : ℕ) : ℚ)))

/-- `main.py` / `pdf_processor.py`: horizontal expansion of the right edge,
`h_expand = (len_ratio - 1) * width; x1 = x1 + h_expand`. -/
def expandX1 (ratio x0 x1 : ℚ) : ℚ :=
  x1 + (ratio - 1) * (x1 - x0)

/-- `main.py` lines 647-671 (digital layout path) and the identical logic of
`PdfTranslator._apply_translations_to_pdf` (`pdf_processor.py` lines 185-207):
region adjustment for a digital-page fragment.  Expands the right edge by the
clamped length ratio (cap 1.05), shrinks vertically by
`min(height * 0.1, 3)`, and if the resulting height is below 10 recenters on
the vertical center of the original bbox with height exactly 10.
No clamping against the page rectangle is performed. -/
def digitalAdjust (origLen transLen : ℕ) (r : Rect) : Rect :=
  let ratio := lenRatio (21/20) origLen transLen
  let height := r.y1 - r.y0
  let x1 := expandX1 ratio r.x0 r.x1
  let vm := min (height * (1/10)) 3
  let y0 := r.y0 + vm
  let y1 := r.y1 - vm
  if y1 - y0 < 10 then
    let yc := (r.y0 + r.y1) / 2
    ⟨r.x0, yc - 5, x1, yc + 5⟩
  else
    ⟨r.x0, y0, x1, y1⟩

/-- `main.py` lines 1038-1056 (scanned layout path): region adjustment for a
scanned-page fragment.  Expands the right edge by the clamped length ratio
(cap 1.1), pads all sides by `max(2, height * 0.1)` while clamping into the
page rectangle `[0, pageW] × [0, pageH]`, and if the resulting height is below
10 recenters vertically (again clamped into the page). -/
def scannedAdjust (origLen transLen : ℕ) (pageW pageH : ℚ) (r : Rect) : Rect :=
  let ratio := lenRatio (11/10) origLen transLen
  let height := r.y1 - r.y0
  let x1e := expandX1 ratio r.x0 r.x1
  let padding := max 2 (height * (1/10))
  let x0 := max 0 (r.x0 - padding)
  let y0 := max 0 (r.y0 - padding)
  let x1 := min pageW (x1e + padding)
  let y1 := min pageH (r.y1 + padding)
  if y1 - y0 < 10 then
    let yc := (r.y0 + r.y1) / 2
    ⟨x0, max 0 (yc - 5), x1, min pageH (yc + 5)⟩
  else
    ⟨x0, y0, x1, y1⟩

/-- A rectangle is inside the page rectangle `[0, w] × [0, h]`. -/
def Rect.insidePage (r : Rect) (w h : ℚ) : Prop :=
  0 ≤ r.x0 ∧ 0 ≤ r.y0 ∧ r.x1 ≤ w ∧ r.y1 ≤ h

/-! ## Python string helpers -/

/-- Python `str.strip()`: drop leading and trailing whitespace.  (Defined
over the character list so that it is kernel-computable.) -/
def pyStrip (s : String) : String :=
  ⟨((s.data.dropWhile Char.isWhitespace).reverse.dropWhile Char.isWhitespace).reverse⟩

/-- Python `str.rstrip()`: drop trailing whitespace. -/
def pyRStrip (s : String) : String :=
  ⟨(s.data.reverse.dropWhile Char.isWhitespace).reverse⟩

/-- Helper for `pyWords`: scan the characters, accumulating the current word
reversed, emitting a word at every whitespace boundary. -/
def wordsAux : List Char → List Char → List String
  | [], cur => if cur = [] then [] else [⟨cur.reverse⟩]
  | c :: rest, cur =>
    if c.isWhitespace then
      if cur = [] then wordsAux rest []
      else ⟨cur.reverse⟩ :: wordsAux rest []
    else wordsAux rest (c :: cur)

/-- Python `str.split()` with no separator: whitespace-delimited words,
empty strings discarded. -/
def pyWords (s : String) : List String :=
  wordsAux s.data []

/-! ## Batch Translator Adapter (`services/translation_service.py`) -/

/-- Python `str.endswith(p)`. -/
def pyEndsWith (s suffix : String) : Bool :=
  suffix.data.isSuffixOf s.data

/-- `AzureTranslationProvider.translate_texts` (`translation_service.py`
lines 116-149): slicing `range(0, len(cleaned_texts), chunk_size)` —
consecutive chunks of at most `k` elements, in order. -/
def chunksOf {α : Type} (k : ℕ) : List α → List (List α)
  | [] => []
  | x :: xs => (x :: xs.take (k - 1)) :: chunksOf k (xs.drop (k - 1))
termination_by l => l.length
decreasing_by
  simp only [List.length_cons, List.length_drop]
  omega

/-- `AzureTranslationProvider.translate_texts`: chunks of 50 texts are sent
to the Azure client, which (per the documented API contract, spec §6:
input/output length-matched) returns one result per request item in order.
The per-item oracle `item` yields `some t'` when the response item carries a
nonempty `translations` list (the code appends its first text) and `none`
when it does not (the code appends `""`).  Cleaning
(`str(t) if t else ""`) is the identity on strings. -/
def azureTranslateTexts (item : String → Option String) (texts : List String) :
    List String :=
  if texts.isEmpty then []
  else ((chunksOf 50 texts).map fun chunk =>
    chunk.map fun t => (item t).getD "").flatten

/-- `translation_service.py` line 246: `['.', '!', '?', ':', ';', '\n']` —
terminal punctuation that disqualifies a fragment from grouping. -/
def sentenceEndPunct : List String :=
  [".", "!", "?", ":", ";", "\n"]

/-- `LibreTranslateProvider.translate_texts` lines 245-248: a fragment is
"short" when it has fewer than 25 characters, does not end (after
`rstrip()`) with sentence punctuation, and has at most 3 words. -/
def isShortFragment (t : String) : Bool :=
  decide (t.length < 25) &&
  !(sentenceEndPunct.any fun p => pyEndsWith (pyRStrip t) p) &&
  decide ((pyWords t).length ≤ 3)

/-- `LibreTranslateProvider.translate_text` (lines 166-215): returns `""`
for whitespace-blank input without contacting the backend, otherwise posts
to the backend.  The oracle `tr` returns `none` when the HTTP call raises. -/
def libreTranslateText (tr : String → Option String) (t : String) : Option String :=
  if pyStrip t = "" then some "" else tr t

/-- `LibreTranslateProvider.translate_texts` lines 251-271: the inner
grouping loop — starting at index `i` with the already collected
`(index, stripped text)` pairs `acc`, keep collecting consecutive short
non-blank fragments while the group stays below 50 entries.  Returns the
collected group and the index at which the outer loop resumes. -/
def collectShortGroup (texts : List String) (i : ℕ) (acc : List (ℕ × String)) :
    List (ℕ × String) × ℕ :=
  if h : i < texts.length then
    if acc.length < 50 then
      let next := pyStrip (texts.get ⟨i, h⟩)
      if next = "" then (acc, i)
      else if isShortFragment next then
        collectShortGroup texts (i + 1) (acc ++ [(i, next)])
      else (acc, i)
    else (acc, i)
  else (acc, i)
termination_by texts.length - i

/-- `LibreTranslateProvider.translate_texts` lines 283-316: distribute the
words of the group's translation back over the group's fragments
proportionally to the original word counts.  `pairs` carries
`(original index, original word count)`; `wordIdx` is the cursor into
`translatedWords`.  (The code computes `int(len(translated_words) *
proportion)` with float arithmetic; it is modelled here by integer floor
division, which the claims checked do not depend on.) -/
def distributeWords (texts translatedWords : List String) (total : ℕ) :
    List (ℕ × ℕ) → ℕ → List String → List String
  | [], _, translated => translated
  | (origIdx, fragLen) :: rest, wordIdx, translated =>
    if translatedWords.length ≤ wordIdx then
      distributeWords texts translatedWords total rest wordIdx
        (translated.set origIdx (texts.getD origIdx ""))
    else
      let n0 := max 1 (translatedWords.length * fragLen / total)
      let n1 := if rest.isEmpty then translatedWords.length - wordIdx else n0
      let n := min n1 (translatedWords.length - wordIdx)
      if 0 < n then
        distributeWords texts translatedWords total rest (wordIdx + n)
          (translated.set origIdx
            (String.intercalate " " ((translatedWords.drop wordIdx).take n)))
      else
        distributeWords texts translatedWords total rest wordIdx
          (translated.set origIdx (texts.getD origIdx ""))

/-- `LibreTranslateProvider.translate_texts` lines 272-340: translate a
collected group as one joined sentence and split the result back; when the
grouped call raises, fall back to translating each member individually,
keeping the raw original text on a second failure.  When the translation is
blank or the group has no words, every member keeps its original text. -/
def processGroup (tr : String → Option String) (texts : List String)
    (group : List (ℕ × String)) (translated : List String) : List String :=
  let groupedText := String.intercalate " " (group.map Prod.snd)
  match libreTranslateText tr groupedText with
  | some translatedGroup =>
    let translatedWords := pyWords translatedGroup
    let total := (group.map fun g => (pyWords g.2).length).sum
    if 0 < total ∧ 0 < translatedWords.length then
      distributeWords texts translatedWords total
        (group.map fun g => (g.1, (pyWords g.2).length)) 0 translated
    else
      group.foldl (fun acc g => acc.set g.1 (texts.getD g.1 "")) translated
  | none =>
    group.foldl (fun acc g =>
      match libreTranslateText tr (texts.getD g.1 "") with
      | some v => acc.set g.1 v
      | none => acc.set g.1 (texts.getD g.1 "")) translated

/-- index-progress of the grouping loop: the resume index never moves
backwards. -/
theorem le_collectShortGroup_snd (texts : List String) :
    ∀ (m i : ℕ) (acc : List (ℕ × String)), texts.length - i ≤ m →
      i ≤ (collectShortGroup texts i acc).2 := by
  intro m
  induction m with
  | zero =>
    intro i acc hm
    rw [collectShortGroup]
    split
    · omega
    · omega
  | succ m ih =>
    intro i acc hm
    rw [collectShortGroup]
    split
    · rename_i h
      split
      · dsimp only
        split
        · omega
        · split
          · have := ih (i + 1) (acc ++ [(i, pyStrip (texts.get ⟨i, h⟩))]) (by omega)
            omega
          · omega
      · omega
    · omega

/-- `LibreTranslateProvider.translate_texts` lines 217-341: the outer
`while i < len(texts)` loop.  Blank entries are skipped (their result slot
keeps the initial `""`); a short fragment opens a group which is collected,
translated and distributed; a long fragment is translated individually with
the stripped text kept on error. -/
def libreLoop (tr : String → Option String) (texts : List String) (i : ℕ)
    (translated : List String) : List String :=
  if h : i < texts.length then
    let t := pyStrip (texts.get ⟨i, h⟩)
    if t = "" then libreLoop tr texts (i + 1) translated
    else if isShortFragment t then
      let g := collectShortGroup texts (i + 1) [(i, t)]
      libreLoop tr texts g.2 (processGroup tr texts g.1 translated)
    else
      libreLoop tr texts (i + 1)
        (translated.set i ((libreTranslateText tr t).getD t))
  else translated
termination_by texts.length - i
decreasing_by
  · omega
  · have := le_collectShortGroup_snd texts (texts.length - (i + 1)) (i + 1)
      [(i, pyStrip (texts.get ⟨i, h⟩))] (by omega)
    omega
  · omega

/-- `LibreTranslateProvider.translate_texts` lines 226-232: result slots are
initialised to `[""] * len(texts)` and filled in place by the loop. -/
def libreTranslateTexts (tr : String → Option String) (texts : List String) :
    List String :=
  if texts.isEmpty then []
  else libreLoop tr texts 0 (List.replicate texts.length "")

/-! ## Translation selection and degradation (`main.py` lines 636-645,
`pdf_processor.py` lines 180-187) -/

/-- `main.py` line 637:
`translated_blocks[block_index] if block_index < len(translated_blocks) else original_text`.
Indices are relative to the whole-document fragment order. -/
def selectTranslation (translatedBlocks : List String) (idx : ℕ) (orig : String) : String :=
  (translatedBlocks.get? idx).getD orig

/-- `main.py` digital loop: a fragment whose selected translation is
whitespace-blank is skipped entirely (`if not translated_text.strip():
continue`) — it is never marked for redaction, so its original rendering
remains on the page; otherwise the region is redacted and the selected text
inserted.  The value is the text visible in the fragment's region after the
page is processed. -/
def digitalDisplayedText (translatedBlocks : List String) (idx : ℕ) (orig : String) : String :=
  let t := selectTranslation translatedBlocks idx orig
  if pyStrip t = "" then orig else t

/-- `pdf_processor.py`: `_translate_pages_data` pairs blocks with results by
`zip` (a block beyond the result list keeps `None`, and
`_apply_translations_to_pdf` falls back to `block[0]`); every block is then
redacted and its selected text inserted — even an empty string.  The value is
the text visible in the fragment's region afterwards ("" = blank region). -/
def pdfTranslatorDisplayedText (translatedTexts : List String) (idx : ℕ) (orig : String) : String :=
  (translatedTexts.get? idx).getD orig

/-! ## Per-document page loop with redaction outcome (`main.py` 673-693,
`pdf_processor.py` 211-234) -/

/-- `main.py` lines 673-693 / `pdf_processor.py` lines 221-234: the per-page
loop of the digital translation run.  `redactOk` is the oracle for whether
PyMuPDF's `apply_redactions` succeeds on a given page index; pages without
fragments are skipped (`continue`).  A redaction failure raises
(`HTTPException` in `main.py`, `Exception` in `pdf_processor.py`), aborting
the whole run — modelled as `Except.error` carrying the failing page index.
On success the list of processed page indices is returned. -/
def processDigitalPages (redactOk : ℕ → Bool) : ℕ → List (List String) → Except ℕ (List ℕ)
  | _, [] => .ok []
  | i, page :: rest =>
    if page.isEmpty then processDigitalPages redactOk (i + 1) rest
    else if redactOk i then (processDigitalPages redactOk (i + 1) rest).map (fun l => i :: l)
    else .error i

/-! ## Mark / apply / insert event trace (`main.py` 630-698,
`pdf_processor.py` 211-240) -/

/-- A span-level block of a digital page, as far as the redaction trace is
concerned: its original text and its bold flag. -/
structure DigitalBlock where
  text : String
  isBold : Bool
deriving Repr, DecidableEq

/-- One observable call of the per-page processing: marking a fragment's
region for redaction (`add_redact_annot`), applying all redactions of the
page (`apply_redactions`), or inserting a fragment's translated text. -/
inductive PageEvent where
  | mark (idx : ℕ)
  | applyRedactions
  | insert (idx : ℕ)
deriving Repr, DecidableEq

/-- The fragments of a page that are actually processed: those whose
selected translation is not whitespace-blank (`main.py` line 643 skips the
others), paired with their index. -/
def activeBlocks (translated : List String) (blocks : List DigitalBlock) :
    List (ℕ × DigitalBlock) :=
  blocks.enum.filter fun p => !(pyStrip (selectTranslation translated p.1 p.2.text) == "")

/-- `main.py` lines 630-698: the sequence of observable calls made while
processing one digital page (block indices taken page-locally): the first
pass marks every active fragment's region, then `apply_redactions` runs once
for the page, then the second pass inserts text for the normal-styled and
then the bold-styled fragments. -/
def digitalPageTrace (translated : List String) (blocks : List DigitalBlock) :
    List PageEvent :=
  let active := activeBlocks translated blocks
  let normals := active.filter fun p => !p.2.isBold
  let bolds := active.filter fun p => p.2.isBold
  (active.map fun p => PageEvent.mark p.1) ++
    PageEvent.applyRedactions :: ((normals ++ bolds).map fun p => PageEvent.insert p.1)

/-! ## Scanned-page extraction loop (`services/extraction.py` 85-230) -/

/-- Outcome of OCR on a single page, as distinguished by the `except`
clauses of `extract_text_with_boxes_from_scanned_pdf`: success with a list
of reconstructed line blocks, a generic per-page failure, or
`pytesseract.TesseractNotFoundError`. -/
inductive OcrOutcome where
  | ok (blocks : List String)
  | pageError
  | tesseractMissing
deriving Repr, DecidableEq

/-- `services/extraction.py` lines 85-230, reduced to its error handling:
the per-page loop of `extract_text_with_boxes_from_scanned_pdf`.  A generic
OCR failure appends an empty page and continues
(`pages_data.append([]); continue`); a missing-Tesseract error raises
`HTTPException` and aborts the whole extraction (modelled as
`Except.error ()`).  `p` is the current page index, the second argument the
number of pages still to process. -/
def extractPagesLoop (ocr : ℕ → OcrOutcome) : ℕ → ℕ → Except Unit (List (List String))
  | _, 0 => .ok []
  | p, n + 1 =>
    match ocr p with
    | .ok blocks => (extractPagesLoop ocr (p + 1) n).map (fun rest => blocks :: rest)
    | .pageError => (extractPagesLoop ocr (p + 1) n).map (fun rest => [] :: rest)
    | .tesseractMissing => .error ()

/-- `extract_text_with_boxes_from_scanned_pdf(doc)` over `numPages` pages. -/
def extractPagesWithBoxes (ocr : ℕ → OcrOutcome) (numPages : ℕ) :
    Except Unit (List (List String)) :=
  extractPagesLoop ocr 0 numPages

/-! ## Layout Fitter (spec §4.4)

The repository contains no `fit()` implementation: on the insertion paths
(`main.py` lines 1214-1229, `pdf_processor.py` lines 298-309) wrapping and
fitting are delegated to the PDF library's `insert_htmlbox` /
`insert_textbox`.  The Fitter below is therefore modelled from the
specification's algorithm (spec §4.4), parameterized by an abstract text
width `measure`. -/

/-- Modelled from the spec: character-by-character accumulation used when a
single word overflows the region width — greedily extend the current chunk
while it fits, always placing at least one character per line.  `fits`
decides whether a candidate chunk fits the region width. -/
def splitLongWord (fits : String → Bool) : List Char → String → List String
  | [], cur => if cur = "" then [] else [cur]
  | c :: rest, cur =>
    let cand := cur.push c
    if cur = "" || fits cand then splitLongWord fits rest cand
    else cur :: splitLongWord fits rest (String.singleton c)

/-- Modelled from the spec: greedy line wrapping — accumulate
whitespace-delimited tokens while the measured width fits the region width;
a token that does not fit on a fresh line falls back to
character-by-character accumulation. -/
def wrapTokens (fits : String → Bool) : List String → String → List String
  | [], cur => if cur = "" then [] else [cur]
  | tok :: rest, cur =>
    if cur = "" then
      if fits tok then wrapTokens fits rest tok
      else splitLongWord fits tok.data "" ++ wrapTokens fits rest ""
    else
      let cand := cur ++ " " ++ tok
      if fits cand then wrapTokens fits rest cand
      else
        cur :: (if fits tok then wrapTokens fits rest tok
          else splitLongWord fits tok.data "" ++ wrapTokens fits rest "")

/-- Modelled from the spec: wrap `text` into lines bounded by `maxW` at font
size `size`, measuring rendered width with the abstract `measure`. -/
def wrapText (measure : String → ℚ → ℚ) (size maxW : ℚ) (text : String) : List String :=
  wrapTokens (fun chunk => decide (measure chunk size ≤ maxW)) (pyWords text) ""

/-- Modelled from the spec: `line_height = font_size * 1.25`. -/
def lineHeight (fontSize : ℚ) : ℚ := fontSize * (5/4)

/-- Modelled from the spec: the fixed decay schedule of attempted font
sizes — 6 attempts, each 90% of the previous, floored at 6pt. -/
def fitSizes (base : ℚ) : List ℚ :=
  (List.range 6).map fun k => max 6 (base * (9/10) ^ k)

/-- Result of the Layout Fitter: the wrapped lines and the accepted font
size (line `i` is placed at vertical offset `i * lineHeight fontSize`). -/
structure FitResult where
  lines : List String
  fontSize : ℚ
deriving Repr

/-- Modelled from the spec: `fit(translated_text, region, base_font_size)` —
try the decay schedule of font sizes, accept the first attempt whose
required height `lineHeight * line_count` fits the region height, and if
none fits accept the smallest size anyway (best-effort). -/
def fit (measure : String → ℚ → ℚ) (text : String) (regionW regionH base : ℚ) :
    FitResult :=
  let attempts := (fitSizes base).map fun s =>
    FitResult.mk (wrapText measure s regionW text) s
  match attempts.find? (fun a =>
      decide (lineHeight a.fontSize * a.lines.length ≤ regionH)) with
  | some a => a
  | none => FitResult.mk (wrapText measure (max 6 (base * (9/10) ^ 5)) regionW text)
      (max 6 (base * (9/10) ^ 5))

/-! ## CJK detection (`main.py`, `_contains_cjk_characters`) -/

/-- `main.py` lines 342-372: the code-point ranges actually tested by
`_contains_cjk_characters` (CJK Unified Ideographs, Extension A, Hiragana,
Katakana, Hangul; Extension B is mentioned in a comment but not tested). -/
def isCjkCodePoint (n : ℕ) : Bool :=
  (0x4E00 ≤ n && n ≤ 0x9FFF) ||
  (0x3400 ≤ n && n ≤ 0x4DBF) ||
  (0x3040 ≤ n && n ≤ 0x309F) ||
  (0x30A0 ≤ n && n ≤ 0x30FF) ||
  (0xAC00 ≤ n && n ≤ 0xD7AF)

/-- `main.py` `_contains_cjk_characters`: returns `False` for empty text,
otherwise scans the characters for one in the tested ranges. -/
def containsCjkCharacters (text : String) : Bool :=
  if text = "" then false
  else text.data.any (fun c => isCjkCodePoint c.toNat)

end TranslatorApp

namespace TranslatorApp

/-! ## Theorems for claims C9, C8, C4, C10 -/

/-- C9: for every pair of original/translated lengths (including an empty
original) the clamped growth factor lies within `[1.01, 1.10]` — for the
digital paths (cap 1.05) and the scanned path (cap 1.1) — and the horizontal
expansion step grows the right edge by exactly `(factor - 1) * width`. -/
theorem growth_factor_bounded_and_exact :
    ∀ origLen transLen : ℕ,
      (101/100 ≤ lenRatio (21/20) origLen transLen ∧
        lenRatio (21/20) origLen transLen ≤ 11/10) ∧
      (101/100 ≤ lenRatio (11/10) origLen transLen ∧
        lenRatio (11/10) origLen transLen ≤ 11/10) ∧
      (∀ ratio x0 x1 : ℚ, expandX1 ratio x0 x1 - x1 = (ratio - 1) * (x1 - x0)) := by
  intro origLen transLen
  refine ⟨⟨?_, ?_⟩, ⟨?_, ?_⟩, ?_⟩
  · exact le_min (by norm_num) (le_max_left _ _)
  · exact (min_le_left _ _).trans (by norm_num)
  · exact le_min (by norm_num) (le_max_left _ _)
  · exact min_le_left _ _
  · intro ratio x0 x1
    simp only [expandX1]
    ring

/-- C8: on the digital paths (`main.py` lines 664-668 and
`pdf_processor.py` lines 202-207), whenever the vertically-shrunk region
height falls below the 10-unit floor, the region is recentered on the
vertical center of the original bbox with height exactly 10; consequently
every adjusted region handed to insertion has height at least 10. -/
theorem digital_min_height_enforced (origLen transLen : ℕ) (r : Rect) :
    10 ≤ (digitalAdjust origLen transLen r).y1 - (digitalAdjust origLen transLen r).y0 ∧
    ((r.y1 - min ((r.y1 - r.y0) * (1/10)) 3) - (r.y0 + min ((r.y1 - r.y0) * (1/10)) 3) < 10 →
      (digitalAdjust origLen transLen r).y0 = (r.y0 + r.y1) / 2 - 5 ∧
      (digitalAdjust origLen transLen r).y1 = (r.y0 + r.y1) / 2 + 5) := by
  simp only [digitalAdjust]
  split
  · constructor
    · simp only
      linarith
    · intro _
      exact ⟨rfl, rfl⟩
  · rename_i hge
    push_neg at hge
    constructor
    · simpa using hge
    · intro hlt
      exact absurd (lt_of_lt_of_le hlt (by simpa using hge)) (lt_irrefl _)

/-- C8 witness: a concrete fragment with bbox height 4 (shrunk height below
the floor) on page coordinates — the adjusted region is recentered on the
original vertical center `102` with height exactly 10. -/
theorem digital_min_height_enforced_witness :
    ((100 : ℚ) + 104) / 2 - 5 = 97 ∧ ((100 : ℚ) + 104) / 2 + 5 = 107 ∧
    (104 - min (((104 : ℚ) - 100) * (1/10)) 3) - (100 + min (((104 : ℚ) - 100) * (1/10)) 3) < 10 ∧
    (digitalAdjust 5 7 ⟨20, 100, 80, 104⟩).y0 = 97 ∧
    (digitalAdjust 5 7 ⟨20, 100, 80, 104⟩).y1 = 107 := by
  have h := digital_min_height_enforced 5 7 ⟨20, 100, 80, 104⟩
  have hlt : ((104 : ℚ) - min (((104 : ℚ) - 100) * (1/10)) 3) -
      (100 + min (((104 : ℚ) - 100) * (1/10)) 3) < 10 := by norm_num
  have h2 := h.2 hlt
  refine ⟨by norm_num, by norm_num, hlt, ?_, ?_⟩
  · rw [h2.1]; norm_num
  · rw [h2.2]; norm_num

/-- C4 counterexample: on the digital path (`main.py` lines 647-671) the
adjusted region is NOT clamped to the page.  For the 612 × 792 page, the
fragment bbox `(500, 100, 610, 130)` lies fully inside the page, yet with
original length 1 and translated length 100 the clamped ratio is 1.05 and
the adjusted right edge is `615.5 > 612`: the region exceeds the page
rectangle. -/
theorem digital_region_escapes_page :
    (Rect.insidePage ⟨500, 100, 610, 130⟩ 612 792) ∧
    ¬ (Rect.insidePage (digitalAdjust 1 100 ⟨500, 100, 610, 130⟩) 612 792) ∧
    (digitalAdjust 1 100 ⟨500, 100, 610, 130⟩).x1 = 1231/2 := by
  have hadj : digitalAdjust 1 100 ⟨500, 100, 610, 130⟩ = ⟨500, 103, 1231/2, 127⟩ := by
    simp only [digitalAdjust, lenRatio, expandX1]
    norm_num
  refine ⟨⟨by norm_num, by norm_num, by norm_num, by norm_num⟩, ?_, by rw [hadj]⟩
  rw [hadj]
  intro h
  have := h.2.2.1
  norm_num at this

/-- C4 amended: on the scanned path (`main.py` lines 1038-1056) the adjusted
region is always clamped into the page rectangle `[0, pageW] × [0, pageH]`
(all four clamps are unconditional `max 0` / `min page` operations); on the
digital path no such clamp exists. -/
theorem scanned_region_clamped_to_page
    (origLen transLen : ℕ) (pageW pageH : ℚ) (r : Rect) :
    0 ≤ (scannedAdjust origLen transLen pageW pageH r).x0 ∧
    0 ≤ (scannedAdjust origLen transLen pageW pageH r).y0 ∧
    (scannedAdjust origLen transLen pageW pageH r).x1 ≤ pageW ∧
    (scannedAdjust origLen transLen pageW pageH r).y1 ≤ pageH := by
  simp only [scannedAdjust]
  split
  · exact ⟨le_max_left _ _, le_max_left _ _, min_le_left _ _, min_le_left _ _⟩
  · exact ⟨le_max_left _ _, le_max_left _ _, min_le_left _ _, min_le_left _ _⟩

/-- C10: `_contains_cjk_characters` returns `True` exactly when some
character's code point lies in one of the five tested ranges
(U+4E00-U+9FFF, U+3400-U+4DBF, U+3040-U+309F, U+30A0-U+30FF,
U+AC00-U+D7AF); it returns `False` for the empty string, and any string
whose characters all lie in the supplementary-plane Extension B block
U+20000-U+2A6DF never triggers the wide-coverage-font path. -/
theorem contains_cjk_characterization (s : String) :
    (containsCjkCharacters s = true ↔
      ∃ c ∈ s.data,
        (0x4E00 ≤ c.toNat ∧ c.toNat ≤ 0x9FFF) ∨
        (0x3400 ≤ c.toNat ∧ c.toNat ≤ 0x4DBF) ∨
        (0x3040 ≤ c.toNat ∧ c.toNat ≤ 0x309F) ∨
        (0x30A0 ≤ c.toNat ∧ c.toNat ≤ 0x30FF) ∨
        (0xAC00 ≤ c.toNat ∧ c.toNat ≤ 0xD7AF)) ∧
    containsCjkCharacters "" = false ∧
    ((∀ c ∈ s.data, 0x20000 ≤ c.toNat ∧ c.toNat ≤ 0x2A6DF) →
      containsCjkCharacters s = false) := by
  refine ⟨?_, rfl, ?_⟩
  · constructor
    · intro h
      by_cases hs : s = ""
      · rw [hs] at h
        simp [containsCjkCharacters] at h
      · rw [containsCjkCharacters, if_neg hs, List.any_eq_true] at h
        obtain ⟨c, hc, hcjk⟩ := h
        refine ⟨c, hc, ?_⟩
        simp only [isCjkCodePoint, Bool.or_eq_true, Bool.and_eq_true,
          decide_eq_true_eq] at hcjk
        tauto
    · rintro ⟨c, hc, hr⟩
      have hs : s ≠ "" := by
        intro hs
        rw [hs] at hc
        simp at hc
      rw [containsCjkCharacters, if_neg hs, List.any_eq_true]
      refine ⟨c, hc, ?_⟩
      simp only [isCjkCodePoint, Bool.or_eq_true, Bool.and_eq_true,
        decide_eq_true_eq]
      tauto
  · intro hall
    by_cases hs : s = ""
    · rw [hs]; rfl
    · rw [containsCjkCharacters, if_neg hs]
      rw [List.any_eq_false]
      intro c hc
      obtain ⟨hlo, _⟩ := hall c hc
      have : isCjkCodePoint c.toNat = false := by
        simp only [isCjkCodePoint, Bool.or_eq_false_iff, Bool.and_eq_false_iff,
          decide_eq_false_iff_not, not_le]
        omega
      simp [this]

/-- C10 witness: the single Extension B ideograph U+20000 does not trigger
the CJK path, while a common ideograph does. -/
theorem contains_cjk_characterization_witness :
    containsCjkCharacters "𠀀" = false ∧ containsCjkCharacters "測" = true := by
  constructor
  · exact (contains_cjk_characterization "𠀀").2.2 (by decide)
  · exact ((contains_cjk_characterization "測").1).2 ⟨'測', by decide, by decide⟩

/-- C2 counterexample: on the `PdfTranslator` pipeline
(`pdf_processor.py`), for backend output `["", "Hola"]` on input
`["Hi", "Bye"]`, fragment 0 does NOT render the original text "Hi": its
region is redacted and the empty string inserted, leaving the region blank. -/
theorem empty_result_renders_blank_in_pdf_translator :
    pdfTranslatorDisplayedText ["", "Hola"] 0 "Hi" = "" ∧
    pdfTranslatorDisplayedText ["", "Hola"] 0 "Hi" ≠ "Hi" := by
  constructor
  · rfl
  · intro h
    exact absurd h (by decide)

/-- C2 amended: a missing result (index beyond the backend output) degrades
to the fragment's original text on both pipelines without throwing; an
empty/blank result degrades to the original only on the `main.py`
digital-layout path, which skips the fragment (leaving the original
un-redacted) — in particular for backend output `["", "Hola"]` on input
`["Hi", "Bye"]` the `main.py` path renders "Hi" and "Hola". -/
theorem unfilled_index_degrades_to_original
    (translated : List String) (idx : ℕ) (orig : String) :
    ((translated.length ≤ idx ∨ pyStrip (selectTranslation translated idx orig) = "") →
      digitalDisplayedText translated idx orig = orig) ∧
    (translated.length ≤ idx → pdfTranslatorDisplayedText translated idx orig = orig) ∧
    digitalDisplayedText ["", "Hola"] 0 "Hi" = "Hi" ∧
    digitalDisplayedText ["", "Hola"] 1 "Bye" = "Hola" := by
  refine ⟨?_, ?_, by decide, by decide⟩
  · intro h
    rcases h with h | h
    · have hsel : selectTranslation translated idx orig = orig := by
        simp only [selectTranslation, List.get?_eq_none.mpr h, Option.getD_none]
      simp only [digitalDisplayedText, hsel]
      split <;> rfl
    · simp only [digitalDisplayedText]
      rw [if_pos h]
  · intro h
    simp only [pdfTranslatorDisplayedText, List.get?_eq_none.mpr h, Option.getD_none]

/-- C2 witness: a backend output of length 1 leaves fragment index 3
unfilled; both pipelines render the original text "Hi" there. -/
theorem unfilled_index_degrades_to_original_witness :
    ((["Hola"] : List String).length ≤ 3 ∨
      pyStrip (selectTranslation ["Hola"] 3 "Hi") = "") ∧
    digitalDisplayedText ["Hola"] 3 "Hi" = "Hi" ∧
    pdfTranslatorDisplayedText ["Hola"] 3 "Hi" = "Hi" := by
  have h := unfilled_index_degrades_to_original ["Hola"] 3 "Hi"
  refine ⟨Or.inl (by decide), h.1 (Or.inl (by decide)), h.2.1 (by decide)⟩

/-- C5 counterexample: a redaction failure on page 0 of a two-page document
aborts the whole translation run (`HTTPException` / `Exception` propagates
out of the page loop): the run yields a document-level error and page 1 is
never translated, contradicting "the remaining pages of the document
continue to be translated". -/
theorem redaction_failure_aborts_document :
    processDigitalPages (fun i => decide (i ≠ 0)) 0 [["Hello"], ["World"]] =
      Except.error 0 ∧
    ∀ done : List ℕ,
      processDigitalPages (fun i => decide (i ≠ 0)) 0 [["Hello"], ["World"]] ≠
        Except.ok done := by
  refine ⟨rfl, ?_⟩
  intro done h
  rw [show processDigitalPages (fun i => decide (i ≠ 0)) 0 [["Hello"], ["World"]] =
      Except.error 0 from rfl] at h
  exact Except.noConfusion h

/-- C5 amended: failure of redaction application on a digital page is
document-fatal, not page-scoped: the run aborts with an error identifying
the failing page (a page on which `apply_redactions` failed), and no list of
translated pages is produced — later pages are not processed. -/
theorem redaction_failure_document_fatal (redactOk : ℕ → Bool) :
    ∀ (pages : List (List String)) (i k : ℕ),
      processDigitalPages redactOk i pages = Except.error k →
      redactOk k = false ∧
        ∀ done : List ℕ, processDigitalPages redactOk i pages ≠ Except.ok done := by
  intro pages
  induction pages with
  | nil =>
    intro i k h
    exact Except.noConfusion h
  | cons page rest ih =>
    intro i k h
    rw [processDigitalPages] at h
    by_cases hempty : page.isEmpty
    · rw [if_pos hempty] at h
      obtain ⟨hk, hnever⟩ := ih (i + 1) k h
      refine ⟨hk, ?_⟩
      intro done
      rw [processDigitalPages, if_pos hempty]
      exact hnever done
    · rw [if_neg hempty] at h
      by_cases hok : redactOk i
      · rw [if_pos hok] at h
        cases hrec : processDigitalPages redactOk (i + 1) rest with
        | ok l => rw [hrec] at h; exact Except.noConfusion h
        | error e =>
          rw [hrec] at h
          have hek : e = k := by
            simpa [Except.map] using h
          obtain ⟨hk, _⟩ := ih (i + 1) k (hek ▸ hrec)
          refine ⟨hk, ?_⟩
          intro done
          rw [processDigitalPages, if_neg hempty, if_pos hok, hrec]
          simp [Except.map]
      · rw [if_neg hok] at h
        have hik : i = k := by
          simpa using h
        subst hik
        refine ⟨by simpa using hok, ?_⟩
        intro done
        rw [processDigitalPages, if_neg hempty, if_neg hok]
        simp

/-- C5 witness: with an oracle that fails on every page, a one-page document
aborts with the error naming page 0. -/
theorem redaction_failure_document_fatal_witness :
    processDigitalPages (fun _ => false) 0 [["Hello"]] = Except.error 0 ∧
    (fun _ => false : ℕ → Bool) 0 = false ∧
    ∀ done : List ℕ,
      processDigitalPages (fun _ => false) 0 [["Hello"]] ≠ Except.ok done := by
  have h := redaction_failure_document_fatal (fun _ => false) [["Hello"]] 0 0 rfl
  exact ⟨rfl, h.1, h.2⟩

/-- C6: on every digital page the observable trace is batch-mark-then-apply:
it splits as `pre ++ apply_redactions :: post` where `pre` consists solely of
`mark` events (one per active fragment), `post` contains no `mark` event,
and `apply_redactions` occurs exactly once in the whole trace — never before
all fragment regions are marked, and never incrementally per fragment. -/
theorem batch_mark_then_apply (translated : List String) (blocks : List DigitalBlock) :
    ∃ pre post,
      digitalPageTrace translated blocks = pre ++ PageEvent.applyRedactions :: post ∧
      (∀ e ∈ pre, ∃ i, e = PageEvent.mark i) ∧
      (∀ e ∈ post, ∃ i, e = PageEvent.insert i) ∧
      (digitalPageTrace translated blocks).count PageEvent.applyRedactions = 1 := by
  simp only [digitalPageTrace]
  refine ⟨_, _, rfl, ?_, ?_, ?_⟩
  · intro e he
    obtain ⟨p, _, hp⟩ := List.mem_map.mp he
    exact ⟨p.1, hp.symm⟩
  · intro e he
    obtain ⟨p, _, hp⟩ := List.mem_map.mp he
    exact ⟨p.1, hp.symm⟩
  · have hcount : ∀ (l : List (ℕ × DigitalBlock)) (f : ℕ × DigitalBlock → PageEvent),
        (∀ p, f p ≠ PageEvent.applyRedactions) →
        (l.map f).count PageEvent.applyRedactions = 0 := by
      intro l f hf
      rw [List.count_eq_zero]
      intro hmem
      obtain ⟨p, _, hp⟩ := List.mem_map.mp hmem
      exact hf p hp
    rw [List.count_append, List.count_cons,
      hcount _ _ (fun p => by intro h; exact PageEvent.noConfusion h),
      hcount _ _ (fun p => by intro h; exact PageEvent.noConfusion h)]
    simp

/-- C7 counterexample: when OCR raises `TesseractNotFoundError` while
extracting page 0 of a two-page scanned document, the whole extraction
aborts with an error instead of emitting that page with zero fragments and
continuing. -/
theorem tesseract_missing_aborts_extraction :
    extractPagesWithBoxes (fun _ => OcrOutcome.tesseractMissing) 2 = Except.error () ∧
    ∀ pages : List (List String),
      extractPagesWithBoxes (fun _ => OcrOutcome.tesseractMissing) 2 ≠ Except.ok pages := by
  refine ⟨rfl, ?_⟩
  intro pages h
  rw [show extractPagesWithBoxes (fun _ => OcrOutcome.tesseractMissing) 2 =
      Except.error () from rfl] at h
  exact Except.noConfusion h

/-- C7 amended: as long as no page's OCR raises the missing-Tesseract error,
a per-page extraction error never aborts the document: every page is
emitted (the output has one entry per page), a failing page is emitted with
the empty fragment list, and processing continues with the next page. -/
theorem page_extraction_error_degrades (ocr : ℕ → OcrOutcome) :
    ∀ (n p : ℕ), (∀ k, k < n → ocr (p + k) ≠ OcrOutcome.tesseractMissing) →
      ∃ pages, extractPagesLoop ocr p n = Except.ok pages ∧
        pages.length = n ∧
        (∀ k, k < n → ocr (p + k) = OcrOutcome.pageError → pages.get? k = some []) ∧
        (∀ k blocks, k < n → ocr (p + k) = OcrOutcome.ok blocks →
          pages.get? k = some blocks) := by
  intro n
  induction n with
  | zero =>
    intro p _
    exact ⟨[], rfl, rfl, fun k hk => absurd hk (by omega), fun k _ hk => absurd hk (by omega)⟩
  | succ m ih =>
    intro p hok
    have hrest := ih (p + 1) (fun k hk => by
      have := hok (k + 1) (by omega)
      simpa [Nat.add_assoc, Nat.add_comm 1 k] using this)
    obtain ⟨rest, hrest_eq, hrest_len, hrest_err, hrest_ok⟩ := hrest
    cases hocr : ocr p with
    | ok blocks =>
      refine ⟨blocks :: rest, ?_, by simp [hrest_len], ?_, ?_⟩
      · rw [extractPagesLoop, hocr, hrest_eq]
        rfl
      · intro k hk herr
        cases k with
        | zero => rw [Nat.add_zero] at herr; rw [hocr] at herr; exact OcrOutcome.noConfusion herr
        | succ j =>
          have := hrest_err j (by omega) (by
            have : p + (j + 1) = p + 1 + j := by omega
            rw [this] at herr
            exact herr)
          simpa using this
      · intro k bs hk hkok
        cases k with
        | zero =>
          rw [Nat.add_zero] at hkok
          rw [hocr] at hkok
          obtain rfl : blocks = bs := by injection hkok
          rfl
        | succ j =>
          have := hrest_ok j bs (by omega) (by
            have : p + (j + 1) = p + 1 + j := by omega
            rw [this] at hkok
            exact hkok)
          simpa using this
    | pageError =>
      refine ⟨[] :: rest, ?_, by simp [hrest_len], ?_, ?_⟩
      · rw [extractPagesLoop, hocr, hrest_eq]
        rfl
      · intro k hk herr
        cases k with
        | zero => rfl
        | succ j =>
          have := hrest_err j (by omega) (by
            have : p + (j + 1) = p + 1 + j := by omega
            rw [this] at herr
            exact herr)
          simpa using this
      · intro k bs hk hkok
        cases k with
        | zero =>
          rw [Nat.add_zero] at hkok
          rw [hocr] at hkok
          exact OcrOutcome.noConfusion hkok
        | succ j =>
          have := hrest_ok j bs (by omega) (by
            have : p + (j + 1) = p + 1 + j := by omega
            rw [this] at hkok
            exact hkok)
          simpa using this
    | tesseractMissing =>
      exact absurd hocr (by simpa using hok 0 (by omega))

/-! ### Batch Translator Adapter lemmas (C1) -/

theorem chunksOf_map_flatten {α β : Type} (g : α → β) (k : ℕ) :
    ∀ (n : ℕ) (l : List α), l.length ≤ n →
      ((chunksOf k l).map (List.map g)).flatten = l.map g := by
  intro n
  induction n with
  | zero =>
    intro l hl
    have : l = [] := List.eq_nil_of_length_eq_zero (by omega)
    subst this
    rw [chunksOf]
    rfl
  | succ m ih =>
    intro l hl
    cases l with
    | nil =>
      rw [chunksOf]
      rfl
    | cons x xs =>
      have hx : xs.length + 1 ≤ m + 1 := by simpa using hl
      rw [chunksOf]
      rw [List.map_cons, List.flatten_cons]
      rw [ih (xs.drop (k - 1)) (by simp only [List.length_drop]; omega)]
      rw [List.map_cons]
      rw [show List.map g (xs.drop (k - 1)) = (List.map g xs).drop (k - 1) by
        rw [List.map_drop]]
      rw [show List.map g (xs.take (k - 1)) = (List.map g xs).take (k - 1) by
        rw [List.map_take]]
      simp [List.take_append_drop]

/-- The Azure chunking is equivalent to a direct elementwise map. -/
theorem azureTranslateTexts_eq_map (item : String → Option String)
    (texts : List String) :
    azureTranslateTexts item texts = texts.map fun t => (item t).getD "" := by
  rw [azureTranslateTexts]
  split
  · rename_i h
    rw [List.isEmpty_iff.mp h]
    rfl
  · exact chunksOf_map_flatten _ 50 texts.length texts le_rfl

theorem foldl_set_length {β : Type} (f : List String → β → List String)
    (hf : ∀ acc b, (f acc b).length = acc.length) :
    ∀ (l : List β) (acc : List String), (l.foldl f acc).length = acc.length := by
  intro l
  induction l with
  | nil => intro acc; rfl
  | cons b rest ih =>
    intro acc
    rw [List.foldl_cons, ih, hf]

theorem distributeWords_length (texts tws : List String) (total : ℕ) :
    ∀ (pairs : List (ℕ × ℕ)) (wordIdx : ℕ) (translated : List String),
      (distributeWords texts tws total pairs wordIdx translated).length =
        translated.length := by
  intro pairs
  induction pairs with
  | nil =>
    intro wordIdx translated
    rfl
  | cons p rest ih =>
    intro wordIdx translated
    obtain ⟨origIdx, fragLen⟩ := p
    rw [distributeWords]
    split
    · rw [ih, List.length_set]
    · dsimp only
      split <;> split <;> rw [ih, List.length_set]

theorem processGroup_length (tr : String → Option String) (texts : List String)
    (group : List (ℕ × String)) (translated : List String) :
    (processGroup tr texts group translated).length = translated.length := by
  rw [processGroup]
  split
  · dsimp only
    split
    · rw [distributeWords_length]
    · exact foldl_set_length _ (fun acc g => List.length_set ..) group translated
  · refine foldl_set_length _ ?_ group translated
    intro acc g
    split
    · exact List.length_set ..
    · exact List.length_set ..

theorem libreLoop_length (tr : String → Option String) (texts : List String) :
    ∀ (m i : ℕ) (translated : List String), texts.length - i ≤ m →
      (libreLoop tr texts i translated).length = translated.length := by
  intro m
  induction m with
  | zero =>
    intro i translated hm
    rw [libreLoop]
    split
    · omega
    · rfl
  | succ m ih =>
    intro i translated hm
    rw [libreLoop]
    split
    · rename_i h
      dsimp only
      split
      · exact ih (i + 1) translated (by omega)
      · split
        · rw [ih _ _ (by
            have := le_collectShortGroup_snd texts (texts.length - (i + 1)) (i + 1)
              [(i, pyStrip (texts.get ⟨i, h⟩))] (by omega)
            omega)]
          rw [processGroup_length]
        · rw [ih (i + 1) _ (by omega), List.length_set]
    · rfl

theorem distributeWords_get?_untouched (texts tws : List String) (total : ℕ) :
    ∀ (pairs : List (ℕ × ℕ)) (wordIdx : ℕ) (translated : List String) (j : ℕ),
      (∀ p ∈ pairs, p.1 ≠ j) →
      (distributeWords texts tws total pairs wordIdx translated).get? j =
        translated.get? j := by
  intro pairs
  induction pairs with
  | nil =>
    intro wordIdx translated j _
    rfl
  | cons p rest ih =>
    intro wordIdx translated j hj
    obtain ⟨origIdx, fragLen⟩ := p
    have hne : origIdx ≠ j := hj _ (List.mem_cons_self _ _)
    have hrest : ∀ q ∈ rest, q.1 ≠ j := fun q hq => hj q (List.mem_cons_of_mem _ hq)
    rw [distributeWords]
    split
    · rw [ih _ _ _ hrest, List.get?_set_ne _ _ hne]
    · dsimp only
      split <;> split <;> rw [ih _ _ _ hrest, List.get?_set_ne _ _ hne]

theorem foldl_get?_untouched (f : List String → ℕ × String → List String)
    (hf : ∀ acc g (j : ℕ), g.1 ≠ j → (f acc g).get? j = acc.get? j) :
    ∀ (group : List (ℕ × String)) (translated : List String) (j : ℕ),
      (∀ p ∈ group, p.1 ≠ j) →
      (group.foldl f translated).get? j = translated.get? j := by
  intro group
  induction group with
  | nil =>
    intro translated j _
    rfl
  | cons g rest ih =>
    intro translated j hj
    rw [List.foldl_cons,
      ih _ _ (fun q hq => hj q (List.mem_cons_of_mem _ hq)),
      hf _ _ _ (hj g (List.mem_cons_self _ _))]

/-- every group member collected by the grouping loop beyond the initial
accumulator has a whitespace-nonblank source fragment. -/
theorem collectShortGroup_mem (texts : List String) :
    ∀ (m i : ℕ) (acc : List (ℕ × String)), texts.length - i ≤ m →
      ∀ p ∈ (collectShortGroup texts i acc).1,
        p ∈ acc ∨ pyStrip (texts.getD p.1 "") ≠ "" := by
  intro m
  induction m with
  | zero =>
    intro i acc hm p hp
    rw [collectShortGroup] at hp
    split at hp
    · omega
    · exact Or.inl hp
  | succ m ih =>
    intro i acc hm p hp
    rw [collectShortGroup] at hp
    split at hp
    · rename_i h
      split at hp
      · dsimp only at hp
        split at hp
        · exact Or.inl hp
        · rename_i hne
          split at hp
          · rcases ih (i + 1) _ (by omega) p hp with hin | hnb
            · rcases List.mem_append.mp hin with hin | hin
              · exact Or.inl hin
              · rcases List.mem_singleton.mp hin with rfl
                refine Or.inr ?_
                rw [List.getD_eq_getElem?_getD, List.getElem?_eq_getElem h]
                simpa [List.get] using hne
            · exact Or.inr hnb
          · exact Or.inl hp
      · exact Or.inl hp
    · exact Or.inl hp

theorem processGroup_get?_untouched (tr : String → Option String)
    (texts : List String) (group : List (ℕ × String)) (translated : List String)
    (j : ℕ) (hj : ∀ p ∈ group, p.1 ≠ j) :
    (processGroup tr texts group translated).get? j = translated.get? j := by
  rw [processGroup]
  split
  · dsimp only
    split
    · refine distributeWords_get?_untouched _ _ _ _ _ _ _ ?_
      intro q hq
      obtain ⟨g, hg, rfl⟩ := List.mem_map.mp hq
      exact hj g hg
    · refine foldl_get?_untouched _ ?_ _ _ _ hj
      intro acc g j' hne
      exact List.get?_set_ne _ _ hne
  · refine foldl_get?_untouched _ ?_ _ _ _ hj
    intro acc g j' hne
    split
    · exact List.get?_set_ne _ _ hne
    · exact List.get?_set_ne _ _ hne

/-- the outer loop never writes the slot of a whitespace-blank fragment. -/
theorem libreLoop_get?_blank (tr : String → Option String) (texts : List String)
    (j : ℕ) (hblank : pyStrip (texts.getD j "") = "") :
    ∀ (m i : ℕ) (translated : List String), texts.length - i ≤ m →
      (libreLoop tr texts i translated).get? j = translated.get? j := by
  intro m
  induction m with
  | zero =>
    intro i translated hm
    rw [libreLoop]
    split
    · omega
    · rfl
  | succ m ih =>
    intro i translated hm
    rw [libreLoop]
    split
    · rename_i h
      have hgetD : texts.getD i "" = texts.get ⟨i, h⟩ := by
        rw [List.getD_eq_getElem?_getD, List.getElem?_eq_getElem h]
        simp [List.get]
      dsimp only
      split
      · exact ih (i + 1) translated (by omega)
      · rename_i hne
        split
        · rw [ih _ _ (by
            have := le_collectShortGroup_snd texts (texts.length - (i + 1)) (i + 1)
              [(i, pyStrip (texts.get ⟨i, h⟩))] (by omega)
            omega)]
          refine processGroup_get?_untouched _ _ _ _ _ ?_
          intro p hp
          rcases collectShortGroup_mem texts (texts.length - (i + 1)) (i + 1)
              [(i, pyStrip (texts.get ⟨i, h⟩))] (by omega) p hp with hin | hnb
          · rcases List.mem_singleton.mp hin with rfl
            intro hij
            have hij2 : i = j := hij
            subst hij2
            rw [hgetD] at hblank
            exact hne hblank
          · intro hpj
            rw [hpj] at hnb
            exact hnb hblank
        · rw [ih (i + 1) _ (by omega)]
          refine List.get?_set_ne _ _ ?_
          intro hij
          subst hij
          rw [hgetD] at hblank
          exact hne hblank
    · rfl

/-- the grouping loop never advances past an index whose fragment is blank
or not short: collection stops at the first such index. -/
theorem collectShortGroup_snd_le_stop (texts : List String) (i : ℕ)
    (hi : i < texts.length)
    (hstop : pyStrip (texts.get ⟨i, hi⟩) = "" ∨
      isShortFragment (pyStrip (texts.get ⟨i, hi⟩)) = false) :
    ∀ (m i0 : ℕ) (acc : List (ℕ × String)), texts.length - i0 ≤ m → i0 ≤ i →
      (collectShortGroup texts i0 acc).2 ≤ i := by
  intro m
  induction m with
  | zero =>
    intro i0 acc hm h0
    rw [collectShortGroup]
    split
    · rename_i h
      exact absurd h (by omega)
    · simpa using h0
  | succ m ih =>
    intro i0 acc hm h0
    rw [collectShortGroup]
    split
    · rename_i h
      split
      · dsimp only
        split
        · simpa using h0
        · rename_i hneb
          split
          · rename_i hshort
            by_cases heq : i0 = i
            · subst heq
              rcases hstop with hb | hns
              · exact absurd hb hneb
              · rw [hshort] at hns
                exact Bool.noConfusion hns
            · exact ih (i0 + 1) _ (by omega) (by omega)
          · simpa using h0
      · simpa using h0
    · simpa using h0

/-- every group member is either from the initial accumulator or has an
index at or beyond the collection start. -/
theorem collectShortGroup_mem_ge (texts : List String) :
    ∀ (m i0 : ℕ) (acc : List (ℕ × String)), texts.length - i0 ≤ m →
      ∀ p ∈ (collectShortGroup texts i0 acc).1, p ∈ acc ∨ i0 ≤ p.1 := by
  intro m
  induction m with
  | zero =>
    intro i0 acc hm p hp
    rw [collectShortGroup] at hp
    split at hp
    · rename_i h
      exact absurd h (by omega)
    · exact Or.inl hp
  | succ m ih =>
    intro i0 acc hm p hp
    rw [collectShortGroup] at hp
    split at hp
    · split at hp
      · dsimp only at hp
        split at hp
        · exact Or.inl hp
        · split at hp
          · rcases ih (i0 + 1) _ (by omega) p hp with hin | hge
            · rcases List.mem_append.mp hin with hin | hin
              · exact Or.inl hin
              · rcases List.mem_singleton.mp hin with rfl
                exact Or.inr le_rfl
            · exact Or.inr (by omega)
          · exact Or.inl hp
      · exact Or.inl hp
    · exact Or.inl hp

/-- the outer loop never writes a slot below its current position. -/
theorem libreLoop_get?_lt (tr : String → Option String) (texts : List String)
    (j : ℕ) : ∀ (m i0 : ℕ) (translated : List String), texts.length - i0 ≤ m →
      j < i0 → (libreLoop tr texts i0 translated).get? j = translated.get? j := by
  intro m
  induction m with
  | zero =>
    intro i0 translated hm hj
    rw [libreLoop]
    split
    · omega
    · rfl
  | succ m ih =>
    intro i0 translated hm hj
    rw [libreLoop]
    split
    · rename_i h
      dsimp only
      split
      · exact ih (i0 + 1) translated (by omega) (by omega)
      · split
        · rw [ih _ _ (by
            have := le_collectShortGroup_snd texts (texts.length - (i0 + 1)) (i0 + 1)
              [(i0, pyStrip (texts.get ⟨i0, h⟩))] (by omega)
            omega) (by
            have := le_collectShortGroup_snd texts (texts.length - (i0 + 1)) (i0 + 1)
              [(i0, pyStrip (texts.get ⟨i0, h⟩))] (by omega)
            omega)]
          refine processGroup_get?_untouched _ _ _ _ _ ?_
          intro p hp
          rcases collectShortGroup_mem_ge texts (texts.length - (i0 + 1)) (i0 + 1)
              [(i0, pyStrip (texts.get ⟨i0, h⟩))] (by omega) p hp with hin | hge
          · rcases List.mem_singleton.mp hin with rfl
            omega
          · omega
        · rw [ih (i0 + 1) _ (by omega) (by omega)]
          exact List.get?_set_ne _ _ (by omega)
    · rfl

/-- the slot of a non-blank fragment that is not short receives exactly the
individual translation of that fragment (with its stripped text kept on
backend error), regardless of the surrounding fragments. -/
theorem libreLoop_get?_notshort (tr : String → Option String)
    (texts : List String) (i : ℕ) (hi : i < texts.length)
    (hne : pyStrip (texts.getD i "") ≠ "")
    (hns : isShortFragment (pyStrip (texts.getD i "")) = false) :
    ∀ (m i0 : ℕ) (translated : List String), texts.length - i0 ≤ m → i0 ≤ i →
      translated.length = texts.length →
      (libreLoop tr texts i0 translated).get? i =
        some ((libreTranslateText tr (pyStrip (texts.getD i ""))).getD
          (pyStrip (texts.getD i ""))) := by
  have hgi : texts.getD i "" = texts.get ⟨i, hi⟩ := by
    rw [List.getD_eq_getElem?_getD, List.getElem?_eq_getElem hi]
    simp [List.get]
  intro m
  induction m with
  | zero =>
    intro i0 translated hm h0 hlen
    rw [libreLoop]
    split
    · rename_i h
      exact absurd h (by omega)
    · rename_i h
      exact absurd hi (by omega)
  | succ m ih =>
    intro i0 translated hm h0 hlen
    rw [libreLoop]
    split
    · rename_i h
      have hg0 : texts.getD i0 "" = texts.get ⟨i0, h⟩ := by
        rw [List.getD_eq_getElem?_getD, List.getElem?_eq_getElem h]
        simp [List.get]
      dsimp only
      split
      · rename_i hb
        have hne0 : i0 ≠ i := by
          intro heq
          subst heq
          rw [← hg0] at hb
          exact hne hb
        exact ih (i0 + 1) translated (by omega) (by omega) hlen
      · rename_i hb
        split
        · rename_i hshort
          have hne0 : i0 ≠ i := by
            intro heq
            subst heq
            rw [← hg0] at hshort
            rw [hshort] at hns
            exact Bool.noConfusion hns
          have hstop : pyStrip (texts.get ⟨i, hi⟩) = "" ∨
              isShortFragment (pyStrip (texts.get ⟨i, hi⟩)) = false := by
            rw [← hgi]
            exact Or.inr hns
          have hle := collectShortGroup_snd_le_stop texts i hi hstop
            (texts.length - (i0 + 1)) (i0 + 1)
            [(i0, pyStrip (texts.get ⟨i0, h⟩))] (by omega) (by omega)
          have hge := le_collectShortGroup_snd texts (texts.length - (i0 + 1))
            (i0 + 1) [(i0, pyStrip (texts.get ⟨i0, h⟩))] (by omega)
          exact ih _ _ (by omega) (by omega)
            (by rw [processGroup_length]; exact hlen)
        · by_cases heq : i0 = i
          · subst heq
            rw [libreLoop_get?_lt tr texts i0 (texts.length - (i0 + 1)) (i0 + 1) _
              (by omega) (by omega)]
            rw [List.get?_eq_getElem?,
              List.getElem?_set_eq_of_lt _ (by omega), hg0]
          · rw [ih (i0 + 1) _ (by omega) (by omega)
              (by rw [List.length_set]; exact hlen)]
    · rename_i h
      exact absurd hi (by omega)

/-- C1 counterexample: the LibreTranslate provider does not return, at
every index, an element corresponding to that fragment.  With a backend
that translates the grouped sentence "aa bb cc" to "X Y Z W" and the lone
fragment "cc" to "C": for input `["aa bb", "cc"]` both fragments are short
and are grouped, and the proportional word redistribution assigns slot 1
the slice "Z W" of the group translation — although the provider's own
translation of fragment 1 ("cc"), as returned for the singleton input
`["cc"]`, is "C".  The element at index 1 is a word-slice of the group
translation containing the neighbour's share, not a translation of `F[1]`. -/
theorem libre_grouping_breaks_elementwise_correspondence :
    (libreTranslateTexts
      (fun s => if s = "aa bb cc" then some "X Y Z W"
        else if s = "cc" then some "C" else some s)
      ["aa bb", "cc"]).get? 1 = some "Z W" ∧
    (libreTranslateTexts
      (fun s => if s = "aa bb cc" then some "X Y Z W"
        else if s = "cc" then some "C" else some s)
      ["cc"]).get? 0 = some "C" ∧
    ("Z W" : String) ≠ "C" := by
  refine ⟨?_, ?_, by decide⟩
  · rw [libreTranslateTexts, if_neg (by decide)]
    rw [libreLoop, dif_pos (by decide)]
    rw [if_neg (by decide), if_pos (by decide)]
    rw [collectShortGroup, dif_pos (by decide), if_pos (by decide)]
    rw [if_neg (by decide), if_pos (by decide)]
    rw [collectShortGroup, dif_neg (by decide)]
    rw [libreLoop, dif_neg (by decide)]
    decide
  · rw [libreTranslateTexts, if_neg (by decide)]
    rw [libreLoop, dif_pos (by decide)]
    rw [if_neg (by decide), if_pos (by decide)]
    rw [collectShortGroup, dif_neg (by decide)]
    rw [libreLoop, dif_neg (by decide)]
    decide

/-- C1 amended: both providers' `translate_texts` preserve order and
length.  For the Azure provider (whose client is length-matched per
request), the result has the length of the input and its `i`-th element is
exactly the per-item translation of the `i`-th input — chunking into
batches of 50 neither reorders nor drops entries.  For the LibreTranslate
provider the result always has the length of the input list; a
whitespace-blank fragment's own slot is exactly the untouched `""`, and the
slot of a non-blank fragment that does not qualify as short (≥ 25
characters, terminal punctuation, or more than 3 words) is exactly the
individual translation of that fragment's stripped text (kept as-is on
backend error) — consecutive short fragments, by contrast, are translated
as one grouped sentence whose words are redistributed over their slots
(see the counterexample). -/
theorem translate_texts_order_preserved (item tr : String → Option String)
    (texts : List String) :
    (azureTranslateTexts item texts).length = texts.length ∧
    (∀ i : ℕ, (azureTranslateTexts item texts).get? i =
      (texts.get? i).map fun t => (item t).getD "") ∧
    (libreTranslateTexts tr texts).length = texts.length ∧
    (∀ j : ℕ, j < texts.length → pyStrip (texts.getD j "") = "" →
      (libreTranslateTexts tr texts).get? j = some "") ∧
    (∀ i : ℕ, i < texts.length → pyStrip (texts.getD i "") ≠ "" →
      isShortFragment (pyStrip (texts.getD i "")) = false →
      (libreTranslateTexts tr texts).get? i =
        some ((libreTranslateText tr (pyStrip (texts.getD i ""))).getD
          (pyStrip (texts.getD i "")))) := by
  have hazure := azureTranslateTexts_eq_map item texts
  refine ⟨by rw [hazure, List.length_map], ?_, ?_, ?_, ?_⟩
  · intro i
    rw [hazure, List.get?_map]
  · rw [libreTranslateTexts]
    split
    · rename_i h
      rw [List.isEmpty_iff.mp h]
    · rw [libreLoop_length tr texts texts.length 0 _ (by omega),
        List.length_replicate]
  · intro j hj hblank
    rw [libreTranslateTexts]
    split
    · rename_i h
      rw [List.isEmpty_iff.mp h] at hj
      simp at hj
    · rw [libreLoop_get?_blank tr texts j hblank texts.length 0 _ (by omega)]
      rw [List.get?_eq_getElem?, List.getElem?_replicate, if_pos hj]
  · intro i hi hne hns
    rw [libreTranslateTexts]
    split
    · rename_i h
      rw [List.isEmpty_iff.mp h] at hi
      simp at hi
    · exact libreLoop_get?_notshort tr texts i hi hne hns texts.length 0 _
        (by omega) (by omega) (List.length_replicate _ _)

/-- C1 witness: the LibreTranslate per-slot guarantees at a concrete input —
index 0 is whitespace-blank and keeps `""`; index 1 is a non-short fragment
(ends with '.') and receives exactly its own translation. -/
theorem translate_texts_order_preserved_witness :
    ((0 : ℕ) < (["  ", "This is a long sentence."] : List String).length ∧
      pyStrip ((["  ", "This is a long sentence."] : List String).getD 0 "") = "" ∧
      (libreTranslateTexts (fun s => some s)
        ["  ", "This is a long sentence."]).get? 0 = some "") ∧
    ((1 : ℕ) < (["  ", "This is a long sentence."] : List String).length ∧
      pyStrip ((["  ", "This is a long sentence."] : List String).getD 1 "") ≠ "" ∧
      isShortFragment
        (pyStrip ((["  ", "This is a long sentence."] : List String).getD 1 "")) = false ∧
      (libreTranslateTexts (fun s => some s)
        ["  ", "This is a long sentence."]).get? 1 =
          some "This is a long sentence.") := by
  have h := translate_texts_order_preserved (fun s => some s) (fun s => some s)
    ["  ", "This is a long sentence."]
  refine ⟨⟨by decide, by decide, h.2.2.2.1 0 (by decide) (by decide)⟩,
    by decide, by decide, by decide, ?_⟩
  have h1 := h.2.2.2.2 1 (by decide) (by decide) (by decide)
  rw [h1]
  decide

/-! ### Layout Fitter lemmas (C3) -/

theorem push_ne_empty (s : String) (c : Char) : s.push c ≠ "" := by
  intro h
  have hd := congrArg String.data h
  rw [String.data_push] at hd
  simp at hd

theorem append_str_ne_empty (a b : String) (ha : a ≠ "") : a ++ b ≠ "" := by
  intro h
  have hd := congrArg String.data h
  rw [String.data_append] at hd
  rcases List.append_eq_nil.mp hd with ⟨ha', _⟩
  exact ha (String.ext ha')

theorem splitLongWord_ne_nil (fits : String → Bool) :
    ∀ (l : List Char) (cur : String), (l ≠ [] ∨ cur ≠ "") →
      splitLongWord fits l cur ≠ [] := by
  intro l
  induction l with
  | nil =>
    intro cur h
    rcases h with h | h
    · exact absurd rfl h
    · simp [splitLongWord, h]
  | cons c rest ih =>
    intro cur _
    rw [splitLongWord]
    split
    · exact ih (cur.push c) (Or.inr (push_ne_empty cur c))
    · exact List.cons_ne_nil _ _

theorem wrapTokens_ne_nil (fits : String → Bool) :
    ∀ (toks : List String) (cur : String),
      ((toks ≠ [] ∧ ∀ t ∈ toks, t ≠ "") ∨ cur ≠ "") →
      wrapTokens fits toks cur ≠ [] := by
  intro toks
  induction toks with
  | nil =>
    intro cur h
    rcases h with ⟨h, _⟩ | h
    · exact absurd rfl h
    · simp [wrapTokens, h]
  | cons tok rest ih =>
    intro cur h
    rw [wrapTokens]
    split
    · rename_i hcur0
      have htok : tok ≠ "" := by
        rcases h with ⟨_, hall⟩ | hcur
        · exact hall tok (List.mem_cons_self _ _)
        · exact absurd hcur0 hcur
      split
      · exact ih tok (Or.inr htok)
      · intro hnil
        rcases List.append_eq_nil.mp hnil with ⟨hsplit, _⟩
        exact splitLongWord_ne_nil fits tok.data ""
          (Or.inl (fun hd => htok (String.ext (by simpa using hd)))) hsplit
    · rename_i hcur0
      dsimp only
      split
      · exact ih (cur ++ " " ++ tok) (Or.inr (append_str_ne_empty _ _
          (append_str_ne_empty _ _ hcur0)))
      · exact List.cons_ne_nil _ _

theorem wordsAux_all_ne_empty :
    ∀ (l cur : List Char), ∀ w ∈ wordsAux l cur, w ≠ "" := by
  intro l
  induction l with
  | nil =>
    intro cur w hw
    rw [wordsAux] at hw
    split at hw
    · simp at hw
    · rename_i hcur
      rcases List.mem_singleton.mp hw with rfl
      intro hempty
      have hd := congrArg String.data hempty
      exact hcur (by simpa using List.reverse_eq_nil_iff.mp (by simpa using hd))
  | cons c rest ih =>
    intro cur w hw
    rw [wordsAux] at hw
    split at hw
    · split at hw
      · exact ih [] w hw
      · rename_i hcur
        rcases List.mem_cons.mp hw with rfl | hw'
        · intro hempty
          have hd := congrArg String.data hempty
          exact hcur (by simpa using List.reverse_eq_nil_iff.mp (by simpa using hd))
        · exact ih [] w hw'
    · exact ih (c :: cur) w hw

theorem pyWords_all_ne_empty (s : String) : ∀ w ∈ pyWords s, w ≠ "" :=
  fun w hw => wordsAux_all_ne_empty s.data [] w hw

theorem wrapText_ne_nil (measure : String → ℚ → ℚ) (size maxW : ℚ) (text : String)
    (h : pyWords text ≠ []) : wrapText measure size maxW text ≠ [] :=
  wrapTokens_ne_nil _ _ _ (Or.inl ⟨h, pyWords_all_ne_empty text⟩)

theorem mem_fitSizes_ge (base s : ℚ) (h : s ∈ fitSizes base) : 6 ≤ s := by
  simp only [fitSizes, List.mem_map] at h
  obtain ⟨k, _, rfl⟩ := h
  exact le_max_left _ _

/-- C3 (spec-modelled): the Layout Fitter terminates within the fixed decay
schedule of 6 attempts, and for every input with at least one word and every
region of positive width and height it returns a non-empty list of lines and
a font size no smaller than the 6pt floor. -/
theorem fit_nonempty_and_floor (measure : String → ℚ → ℚ) (text : String)
    (regionW regionH base : ℚ) (hW : 0 < regionW) (hH : 0 < regionH)
    (htext : pyWords text ≠ []) :
    (fit measure text regionW regionH base).lines ≠ [] ∧
    6 ≤ (fit measure text regionW regionH base).fontSize := by
  rw [fit]
  split
  · rename_i a hfind
    have hmem := List.mem_of_find?_eq_some hfind
    simp only [List.mem_map] at hmem
    obtain ⟨s, hs, rfl⟩ := hmem
    exact ⟨wrapText_ne_nil measure s regionW text htext, mem_fitSizes_ge base s hs⟩
  · exact ⟨wrapText_ne_nil measure _ regionW text htext, le_max_left _ _⟩

/-- C3 witness: fitting "hello world" with a proportional width measure in a
100 × 20 region at base size 12 yields non-empty lines at a size ≥ 6. -/
theorem fit_nonempty_and_floor_witness :
    (fit (fun chunk fs => (chunk.length : ℚ) * fs / 2) "hello world" 100 20 12).lines ≠ [] ∧
    6 ≤ (fit (fun chunk fs => (chunk.length : ℚ) * fs / 2) "hello world" 100 20 12).fontSize :=
  fit_nonempty_and_floor (fun chunk fs => (chunk.length : ℚ) * fs / 2) "hello world"
    100 20 12 (by norm_num) (by norm_num) (by decide)

/-- C7 witness: with OCR failing generically on page 0 and succeeding on
page 1 of a two-page document, extraction returns `[[], ["word"]]` — page 0
is emitted empty and page 1 still extracted. -/
theorem page_extraction_error_degrades_witness :
    ∃ pages,
      extractPagesLoop
        (fun k => if k = 0 then OcrOutcome.pageError else OcrOutcome.ok ["word"]) 0 2 =
        Except.ok pages ∧
      pages.length = 2 ∧
      (∀ k, k < 2 →
        (fun k => if k = 0 then OcrOutcome.pageError else OcrOutcome.ok ["word"]) (0 + k) =
          OcrOutcome.pageError → pages.get? k = some []) ∧
      (∀ k blocks, k < 2 →
        (fun k => if k = 0 then OcrOutcome.pageError else OcrOutcome.ok ["word"]) (0 + k) =
          OcrOutcome.ok blocks → pages.get? k = some blocks) := by
  exact page_extraction_error_degrades
    (fun k => if k = 0 then OcrOutcome.pageError else OcrOutcome.ok ["word"]) 2 0
    (by decide)

end TranslatorApp
